import Mathlib

/-!
Shallow embedding of the `router` package of `missionMeteora/apiserv`
(`router.go` and `utils.go` of the `router` directory).

Go strings are modelled as lists of characters (the paths involved are
ASCII, so a byte and a `Char` coincide); Go slices as Lean lists; the
per-method `map[string][]node` as an insertion-ordered association list;
handlers as numeric identifiers.  The callback-driven split helpers
`splitPathFn` / `revSplitPathFn` are embedded as state-threading loops
that mirror the source index arithmetic exactly.
-/

namespace Apiserv

/-- Go `string`, modelled as a list of characters. -/
abbrev Str := List Char

/-- Go `s[a:b]`. -/
def substr (s : Str) (a b : Nat) : Str := (s.take b).drop a

/-- `nodePart` of `utils.go`: a string whose first byte is the part type
(`':'` named param, `'*'` wildcard, `'/'` literal) and whose remainder is
the name. -/
abbrev NodePart := Str

/-- `nodePart.Type()`: the first byte of the part. -/
def partType (np : NodePart) : Char := np.headD ' '

/-- `nodePart.Name()`: the part string with its first byte removed. -/
def partName (np : NodePart) : Str := np.tail

/-- `Param` of `params.go`: a name/value pair captured from the path. -/
abbrev Param := Str × Str

/-- `node` of `router.go`: group, handler and the compiled variable parts.
The handler is modelled as a numeric identifier. -/
structure Node where
  g : Str
  h : Nat
  parts : List NodePart
deriving DecidableEq, Repr

/-- `node.hasStar`: the node has parts and its last part is a wildcard. -/
def Node.hasStar (n : Node) : Bool :=
  !n.parts.isEmpty && (partType (n.parts.getLastD []) == '*')

/-- `routeMap`: `map[string][]node`, modelled as an association list
keyed by static route head (the Go map is only read through `get`, so
iteration order is irrelevant; the per-key slice order is preserved). -/
abbrev RouteMap := List (Str × List Node)

/-- `routeMap.get`: `rm[path]`, `none` when the key is absent (Go nil slice). -/
def rmGet (rm : RouteMap) (key : Str) : Option (List Node) :=
  match rm with
  | [] => none
  | (k, ns) :: rest => if k = key then some ns else rmGet rest key

/-- `routeMap.append`: `rm[path] = append(rm[path], n)`. -/
def rmAppend (rm : RouteMap) (key : Str) (n : Node) : RouteMap :=
  match rm with
  | [] => [(key, [n])]
  | (k, ns) :: rest =>
    if k = key then (k, ns ++ [n]) :: rest else (k, ns) :: rmAppend rest key n

/-- Lookup through a possibly-nil map (`m.get` where `m` may be a nil
`routeMap`; every lookup on a nil Go map yields the zero value). -/
def mGet (m : Option RouteMap) (key : Str) : Option (List Node) :=
  match m with
  | none => none
  | some rm => rmGet rm key

/-- The nine HTTP methods the router stores tables for (`getMap`). -/
inductive Method where
  | GET | HEAD | POST | PUT | PATCH | DELETE | CONNECT | OPTIONS | TRACE
deriving DecidableEq, Repr

/-- The `switch method` of `Router.getMap`, sending a method string to its
table slot; `none` is Go's `default: return nil`. -/
def methodOfString (s : Str) : Option Method :=
  if s = "GET".toList then some .GET
  else if s = "HEAD".toList then some .HEAD
  else if s = "POST".toList then some .POST
  else if s = "PUT".toList then some .PUT
  else if s = "PATCH".toList then some .PATCH
  else if s = "DELETE".toList then some .DELETE
  else if s = "CONNECT".toList then some .CONNECT
  else if s = "OPTIONS".toList then some .OPTIONS
  else if s = "TRACE".toList then some .TRACE
  else none

/-- `Options` of `router.go`. -/
structure Options where
  NoAutoCleanURL : Bool := false
  NoDefaultPanicHandler : Bool := false
  NoPanicOnInvalidAddRoute : Bool := false
  NoCatchPanics : Bool := false
  NoAutoHeadToGet : Bool := false
deriving DecidableEq, Repr

/-- `Router` of `router.go` (the fields routing depends on: the
per-method tables, `maxParams` and the options; the pool is modelled
separately, see `putParams` / `getParams`). -/
structure Router where
  methods : Method → RouteMap
  maxParams : Nat
  opts : Options

/-- `New`: fresh router with the given options (all tables empty). -/
def Router.new (opts : Option Options) : Router :=
  { methods := fun _ => [], maxParams := 0, opts := opts.getD {} }

/-- `Router.getMap(method, false)`: the table of a known method, `none`
for an unknown method string. -/
def Router.getMap (r : Router) (method : Str) : Option RouteMap :=
  (methodOfString method).map r.methods

/-!  The split helpers of `utils.go`.  Both take a callback `fn` that
receives the piece, its running index and the position just past it, and
may stop the walk; the embedding threads a state `σ` through the callback
in place of Go closure mutation. -/

/-- Loop body of `splitPathFn` (`utils.go`): scan `s` forward from byte
`i`; at each separator (and at the end of the string) emit the nonempty
piece since `last`.  The first list argument is the suffix `s[i:]`, so
the recursion is structural: the byte under scrutiny `s[i]` is its head,
`i < len(s)` iff it is nonempty and `i < len(s)-1` iff its tail is. -/
def splitPathFnAux {σ : Type} (s : Str) (sep : Char) (fn : σ → Str → Nat → Nat → σ × Bool) :
    Str → Nat → Nat → Nat → σ → σ × Bool
  | [], _, _, _, st => (st, false)
  | c :: tl, i, last, pi, st =>
    if c ≠ sep ∧ tl ≠ [] then splitPathFnAux s sep fn tl (i+1) last pi st
    else if c ≠ sep then
      -- final byte reached on a non-separator: Go reassigns `i = len(s)`,
      -- so the loop ends right after this piece and the callback's stop
      -- flag is the loop's overall result
      if (substr s last s.length).isEmpty then (st, false)
      else fn st (substr s last s.length) pi s.length
    else
      if (substr s last i).isEmpty then splitPathFnAux s sep fn tl (i+1) last pi st
      else
        match fn st (substr s last i) pi i with
        | (st2, true) => (st2, true)
        | (st2, false) => splitPathFnAux s sep fn tl (i+1) i (pi+1) st2

/-- `splitPathFn` of `utils.go`. -/
def splitPathFn {σ : Type} (s : Str) (sep : Char) (fn : σ → Str → Nat → Nat → σ × Bool)
    (st : σ) : σ × Bool :=
  splitPathFnAux s sep fn s 0 0 0 st

/-- Loop body of `revSplitPathFn` (`utils.go`): scan `s` backward from
byte `i-1` (the first argument is the Go loop index plus one, so `0`
means the loop is done); at each separator emit the nonempty piece up to
`last`. -/
def revSplitPathFnAux {σ : Type} (s : Str) (sep : Char) (fn : σ → Str → Nat → Nat → σ × Bool) :
    Nat → Nat → Nat → σ → σ × Bool
  | 0, _, _, st => (st, false)
  | i + 1, last, pi, st =>
    if s.getD i ' ' ≠ sep then revSplitPathFnAux s sep fn i last pi st
    else if (substr s i last).isEmpty then revSplitPathFnAux s sep fn i last pi st
    else
      match fn st (substr s i last) pi last with
      | (st2, true) => (st2, true)
      | (st2, false) => revSplitPathFnAux s sep fn i i (pi + 1) st2

/-- `revSplitPathFn` of `utils.go`. -/
def revSplitPathFn {σ : Type} (s : Str) (sep : Char) (fn : σ → Str → Nat → Nat → σ × Bool)
    (st : σ) : σ × Bool :=
  revSplitPathFnAux s sep fn s.length s.length 0 st

/-!  The pattern compiler: the regular expression
`([:*/]?[^:*]+)` applied with Go's leftmost-first `FindAllString`
semantics, then `splitPathToParts`. -/

/-- A character excluded by `[^:*]`. -/
def isSpecial (c : Char) : Bool := c == ':' || c == '*'

/-- Longest leading run of characters matched by `[^:*]+`, with the rest. -/
def takeRun : Str → Str × Str
  | [] => ([], [])
  | c :: cs =>
    if isSpecial c then ([], c :: cs)
    else
      let r := takeRun cs
      (c :: r.1, r.2)

theorem takeRun_length_le (s : Str) : (takeRun s).2.length ≤ s.length := by
  induction s with
  | nil => simp [takeRun]
  | cons c cs ih =>
    simp only [takeRun]
    split
    · simp
    · simpa using Nat.le_succ_of_le ih

/-- One leftmost-first match of `([:*/]?[^:*]+)` at the head of `s`:
the match and the remainder, or `none` when no match starts here.
(The optional `[:*/]` consumes a leading `':'`/`'*'` only when a
`[^:*]` character follows; for any other head the two alternatives of
the optional collapse to the plain `[^:*]+` run.) -/
def reMatchStep (s : Str) : Option (Str × Str) :=
  match s with
  | [] => none
  | c :: cs =>
    if isSpecial c then
      match cs with
      | [] => none
      | c2 :: _ =>
        if isSpecial c2 then none
        else
          let r := takeRun cs
          some (c :: r.1, r.2)
    else
      let r := takeRun (c :: cs)
      some (r.1, r.2)

theorem reMatchStep_rest_lt (s : Str) (m rest : Str)
    (h : reMatchStep s = some (m, rest)) : rest.length < s.length := by
  match s with
  | [] => simp [reMatchStep] at h
  | c :: cs =>
    match hsp : isSpecial c with
    | true =>
      match cs with
      | [] => simp [reMatchStep, hsp] at h
      | c2 :: cs2 =>
        match hsp2 : isSpecial c2 with
        | true => simp [reMatchStep, hsp, hsp2] at h
        | false =>
          simp [reMatchStep, hsp, hsp2] at h
          have := takeRun_length_le (c2 :: cs2)
          rw [← h.2]
          simp only [List.length_cons] at *
          omega
    | false =>
      simp [reMatchStep, hsp] at h
      have hle : (takeRun (c :: cs)).2.length ≤ cs.length := by
        simp only [takeRun, hsp]
        simpa using takeRun_length_le cs
      rw [h] at hle
      simp only [List.length_cons] at *
      omega

/-- Scanner loop of `FindAllString`: take the match at the current
position, or advance one byte.  Structured with a step budget so the
recursion is syntactic; a budget of `s.length` always suffices because a
match is nonempty (`reMatchStep_rest_lt`) and the no-match case drops
one byte. -/
def reFindAllAux : Nat → Str → List Str
  | 0, _ => []
  | fuel + 1, s =>
    match reMatchStep s with
    | some mr => mr.1 :: reFindAllAux fuel mr.2
    | none =>
      match s with
      | [] => []
      | _ :: cs => reFindAllAux fuel cs

/-- `re.FindAllString(p, -1)` for `re = ([:*/]?[^:*]+)`: all successive
leftmost-first matches. -/
def reFindAll (s : Str) : List Str :=
  reFindAllAux s.length s

/-- The classifying callback of `splitPathToParts`: switch on the first
byte of the piece (`'*'` counts a star and a param, `':'` a param, `'/'`
a plain literal part; anything else is dropped). -/
def classifyPart (st : List NodePart × Nat × Nat) (sp : Str) (_pidx _idx : Nat) :
    (List NodePart × Nat × Nat) × Bool :=
  match st with
  | (rest, num, stars) =>
    if sp.headD ' ' = '*' then ((rest ++ [sp], num + 1, stars + 1), false)
    else if sp.headD ' ' = ':' then ((rest ++ [sp], num + 1, stars), false)
    else if sp.headD ' ' = '/' then ((rest ++ [sp], num, stars), false)
    else (st, false)

/-- `splitPathToParts` of `utils.go`: static head, variable parts, number
of params and number of stars of a route pattern. -/
def splitPathToParts (p : Str) : Str × List NodePart × Nat × Nat :=
  let parts := reFindAll p
  if parts.length < 2 then (p, [], 0, 0)
  else
    let rest := parts.tail.foldl
      (fun acc part => (splitPathFn part '/' classifyPart acc).1)
      ([], 0, 0)
    (parts.headD [], rest)

/-- Registration-time errors of `router.go`. -/
inductive AddErr where
  | TooManyStars
  | StarNotLast
deriving DecidableEq, Repr

/-- Outcome of one `AddRoute` call: the router state afterwards (Go
mutates the receiver; on failure nothing is mutated), the returned
error, and whether the call panicked.  A panic with `err = some e`
carries the route error as panic value; `panicked` with `err = none`
is the Go runtime panic of appending to the nil map of an unknown
method. -/
structure AddResult where
  router : Router
  err : Option AddErr
  panicked : Bool

/-- `Router.AddRoute` of `router.go`. -/
def Router.AddRoute (r : Router) (group method route : Str) (h : Nat) : AddResult :=
  match splitPathToParts route with
  | (p, rest, num, stars) =>
    if stars > 1 then
      if r.opts.NoPanicOnInvalidAddRoute then ⟨r, some .TooManyStars, false⟩
      else ⟨r, some .TooManyStars, true⟩
    else if stars = 1 ∧ partType (rest.getLastD []) ≠ '*' then
      if r.opts.NoPanicOnInvalidAddRoute then ⟨r, some .StarNotLast, false⟩
      else ⟨r, some .StarNotLast, true⟩
    else
      let p := if p.length > 1 ∧ p.getLastD ' ' = '/' then p.dropLast else p
      match methodOfString method with
      | none => ⟨r, none, true⟩
      | some mth =>
        ⟨{ r with
            methods := fun m' =>
              if m' = mth then rmAppend (r.methods mth) p ⟨group, h, rest⟩
              else r.methods m',
            maxParams := if num > r.maxParams then num else r.maxParams },
          none, false⟩

/-!  The matcher (`Router.match` of `router.go`), decomposed into the
stages of the source function: the backward static-head search over the
path (the `revSplitPathFn` call with its commit closure), the candidate
selection loop, and the forward capture walk (the `splitPathFn` call). -/

/-- State threaded through the commit closure of the backward search:
the bucket found (Go `nn`), the truncated path (Go `path`) and the
separator count (Go `nsep`). -/
structure SearchSt where
  nn : Option (List Node)
  path : Str
  nsep : Nat
deriving Repr

/-- The closure passed to `revSplitPathFn` in `Router.match`: look up
`path[:idx]`; on a hit record the bucket, cut the path to `path[idx:]`,
record `pidx` as `nsep` and stop. -/
def commitProbe (m : Option RouteMap) (path : Str) (st : SearchSt) (_ss : Str)
    (pidx idx : Nat) : SearchSt × Bool :=
  match mGet m (path.take idx) with
  | some ns => (⟨some ns, path.drop idx, pidx⟩, true)
  | none => (st, false)

/-- The static-head search of `Router.match` (the `revSplitPathFn` call
plus the root fallback): the chosen bucket, the remaining path and the
remaining-separator count, or `none` when the match fails early. -/
def Router.search (r : Router) (method path : Str) : Option (List Node × Str × Nat) :=
  let m := r.getMap method
  let res := revSplitPathFn path '/' (commitProbe m path) ⟨none, path, 0⟩
  if res.2 then some (res.1.nn.getD [], res.1.path, res.1.nsep)
  else
    match mGet m ['/'] with
    | some ns => some (ns, path, path.count '/')
    | none => none

/-- The predicate of the selection loop of `Router.match`:
`len(n.parts) == nsep || n.hasStar()`. -/
def qualifies (n : Node) (nsep : Nat) : Bool :=
  n.parts.length == nsep || n.hasStar

/-- The selection loop of `Router.match`: the first node, in
registration order, whose part count is `nsep` or whose last part is a
wildcard. -/
def selectNode (nn : List Node) (nsep : Nat) : Option Node :=
  nn.find? (qualifies · nsep)

/-- The closure passed to `splitPathFn` in `Router.match`: switch on the
type of `rn.parts[pidx]`; a `':'` part captures the piece minus its
leading byte, a `'*'` part captures the whole remaining path minus its
leading byte and stops.  (The source indexes `rn.parts[pidx]` without a
bound check; the out-of-range case cannot occur for the paths the
router is specified on.) -/
def captureProbe (parts : List NodePart) (path : Str) (ps : List Param) (p : Str)
    (pidx _idx : Nat) : List Param × Bool :=
  match parts[pidx]? with
  | none => (ps, false)
  | some np =>
    if partType np = ':' then (ps ++ [(partName np, p.tail)], false)
    else if partType np = '*' then (ps ++ [(partName np, path.tail)], true)
    else (ps, false)

/-- `Router.match` of `router.go`.  The first component is the handler
(`none` is Go's nil handler), the second the params: `none` when no
buffer was taken from the pool (Go's nil `*paramsWrapper`), otherwise
the captured pairs. -/
def Router.matchPath (r : Router) (method path : Str) : Option Nat × Option (List Param) :=
  match r.search method path with
  | none => (none, none)
  | some (nn, path2, nsep) =>
    match selectNode nn nsep with
    | none => (none, none)
    | some rn =>
      if rn.parts.length = 0 then (some rn.h, none)
      else
        let ps := (splitPathFn path2 '/' (captureProbe rn.parts path2) []).1
        (some rn.h, some ps)

/-- `(*paramsWrapper).Params()`: nil wrapper yields nil params. -/
def pwParams (p : Option (List Param)) : List Param := p.getD []

/-- `Router.Match` of `router.go`: `match`, with the HEAD → GET fallback
unless `NoAutoHeadToGet` is set. -/
def Router.MatchPath (r : Router) (method path : Str) : Option Nat × List Param :=
  let hp := r.matchPath method path
  if hp.1 = none ∧ method = "HEAD".toList ∧ !r.opts.NoAutoHeadToGet then
    let hp2 := r.matchPath "GET".toList path
    (hp2.1, pwParams hp2.2)
  else (hp.1, pwParams hp.2)

/-!  The params pool (`Router.getParams` / `Router.putParams` together
with the `pp.New` closure installed by `New`).  A pooled buffer is its
list of pairs plus its capacity; the pool itself is the multiset of
buffers currently held, modelled as a list. -/

/-- A `*paramsWrapper`: the params slice with its capacity. -/
structure PBuf where
  p : List Param
  cap : Nat
deriving DecidableEq, Repr

/-- `Router.getParams`: take a held buffer, or have `pp.New` build a
fresh empty one of capacity `maxParams`. -/
def getParams (maxParams : Nat) (pool : List PBuf) : PBuf × List PBuf :=
  match pool with
  | [] => (⟨[], maxParams⟩, [])
  | b :: bs => (b, bs)

/-- `Router.putParams`: discard the buffer unless its capacity is the
current `maxParams`; otherwise truncate it to length zero and hold it. -/
def putParams (maxParams : Nat) (pool : List PBuf) (b : PBuf) : List PBuf :=
  if b.cap ≠ maxParams then pool
  else ⟨[], b.cap⟩ :: pool

/-!  Probe trajectories.  Which pieces the two split loops hand to their
callback — and in which order — depends only on the string, not on the
callback's state: the lists below record those pieces (piece, running
index, cut position), and the bridge lemmas identify each loop with a
fold of its callback over its trajectory. -/

/-- Fold a callback over a probe list, threading state and stopping at
the first `true`. -/
def probeFold {σ : Type} (fn : σ → Str → Nat → Nat → σ × Bool) :
    List (Str × Nat × Nat) → σ → σ × Bool
  | [], st => (st, false)
  | (ss, pi, idx) :: rest, st =>
    match fn st ss pi idx with
    | (st2, true) => (st2, true)
    | (st2, false) => probeFold fn rest st2

theorem probeFold_cons_stop {σ : Type} (fn : σ → Str → Nat → Nat → σ × Bool)
    (ss : Str) (pi idx : Nat) (rest : List (Str × Nat × Nat)) (st st2 : σ)
    (h : fn st ss pi idx = (st2, true)) :
    probeFold fn ((ss, pi, idx) :: rest) st = (st2, true) := by
  simp [probeFold, h]

theorem probeFold_cons_go {σ : Type} (fn : σ → Str → Nat → Nat → σ × Bool)
    (ss : Str) (pi idx : Nat) (rest : List (Str × Nat × Nat)) (st st2 : σ)
    (h : fn st ss pi idx = (st2, false)) :
    probeFold fn ((ss, pi, idx) :: rest) st = probeFold fn rest st2 := by
  simp [probeFold, h]

/-- The pieces of the backward walk of `revSplitPathFn`, from loop state
(index + 1, `last`, `pi`). -/
def revPieces (s : Str) (sep : Char) : Nat → Nat → Nat → List (Str × Nat × Nat)
  | 0, _, _ => []
  | i + 1, last, pi =>
    if s.getD i ' ' ≠ sep then revPieces s sep i last pi
    else if (substr s i last).isEmpty then revPieces s sep i last pi
    else (substr s i last, pi, last) :: revPieces s sep i i (pi + 1)

/-- The pieces of the backward walk over a whole string. -/
def revSegs (s : Str) (sep : Char) : List (Str × Nat × Nat) :=
  revPieces s sep s.length s.length 0

/-- The pieces of the forward walk of `splitPathFn`, from loop state
(suffix `s[i:]`, `i`, `last`, `pi`). -/
def fwdPieces (s : Str) (sep : Char) : Str → Nat → Nat → Nat → List (Str × Nat × Nat)
  | [], _, _, _ => []
  | c :: tl, i, last, pi =>
    if c ≠ sep ∧ tl ≠ [] then fwdPieces s sep tl (i+1) last pi
    else if c ≠ sep then
      if (substr s last s.length).isEmpty then []
      else [(substr s last s.length, pi, s.length)]
    else
      if (substr s last i).isEmpty then fwdPieces s sep tl (i+1) last pi
      else (substr s last i, pi, i) :: fwdPieces s sep tl (i+1) i (pi+1)

/-- The pieces of the forward walk over a whole string: the `/`-delimited
segments of a path, each with its leading separator. -/
def fwdSegs (s : Str) (sep : Char) : List (Str × Nat × Nat) :=
  fwdPieces s sep s 0 0 0

theorem revAux_eq_probeFold {σ : Type} (s : Str) (sep : Char)
    (fn : σ → Str → Nat → Nat → σ × Bool) :
    ∀ (n last pi : Nat) (st : σ),
      revSplitPathFnAux s sep fn n last pi st = probeFold fn (revPieces s sep n last pi) st := by
  intro n
  induction n with
  | zero => intro last pi st; rfl
  | succ i ih =>
    intro last pi st
    simp only [revSplitPathFnAux, revPieces]
    split
    · exact ih last pi st
    · split
      · exact ih last pi st
      · simp only [probeFold]
        rcases hfn : fn st (substr s i last) pi last with ⟨st2, stop⟩
        cases stop
        · exact ih i (pi + 1) st2
        · rfl

theorem fwdAux_eq_probeFold {σ : Type} (s : Str) (sep : Char)
    (fn : σ → Str → Nat → Nat → σ × Bool) :
    ∀ (suf : Str) (i last pi : Nat) (st : σ),
      splitPathFnAux s sep fn suf i last pi st =
        probeFold fn (fwdPieces s sep suf i last pi) st := by
  intro suf
  induction suf with
  | nil => intro i last pi st; rfl
  | cons c tl ih =>
    intro i last pi st
    simp only [splitPathFnAux, fwdPieces]
    split
    · exact ih (i+1) last pi st
    · split
      · split
        · rfl
        · rcases hfn : fn st (substr s last s.length) pi s.length with ⟨st2, stop⟩
          cases stop <;> simp [probeFold, hfn]
      · split
        · exact ih (i+1) last pi st
        · rcases hfn : fn st (substr s last i) pi i with ⟨st2, stop⟩
          cases stop
          · rw [probeFold_cons_go _ _ _ _ _ st st2 hfn]
            exact ih (i+1) i (pi+1) st2
          · rw [probeFold_cons_stop _ _ _ _ _ st st2 hfn]

/-- A callback that never commits leaves the fold at its initial state. -/
theorem probeFold_never {σ : Type} (fn : σ → Str → Nat → Nat → σ × Bool)
    (h : ∀ st ss pi idx, fn st ss pi idx = (st, false)) :
    ∀ (probes : List (Str × Nat × Nat)) (st : σ), probeFold fn probes st = (st, false) := by
  intro probes
  induction probes with
  | nil => intro st; rfl
  | cons pr rest ih =>
    intro st
    rcases pr with ⟨ss, pi, idx⟩
    simp only [probeFold, h st ss pi idx]
    exact ih st

/-- Folding the commit closure of the backward search is exactly a
`find?` over the probe list: the first probe whose path cut is a
registered static head wins. -/
theorem probeFold_commitProbe (m : Option RouteMap) (path : Str) :
    ∀ (probes : List (Str × Nat × Nat)) (st : SearchSt),
      probeFold (commitProbe m path) probes st =
        match probes.find? (fun pr => (mGet m (path.take pr.2.2)).isSome) with
        | some pr =>
          (⟨some ((mGet m (path.take pr.2.2)).getD []), path.drop pr.2.2, pr.2.1⟩, true)
        | none => (st, false) := by
  intro probes
  induction probes with
  | nil => intro st; rfl
  | cons pr rest ih =>
    intro st
    rcases pr with ⟨ss, pi, idx⟩
    cases hm : mGet m (path.take idx) with
    | none =>
      rw [List.find?_cons_of_neg _ (by simp [hm])]
      rw [probeFold_cons_go _ _ _ _ _ st st (by simp [commitProbe, hm])]
      exact ih st
    | some ns =>
      rw [List.find?_cons_of_pos _ (by simp [hm])]
      rw [probeFold_cons_stop _ _ _ _ _ st
        ⟨some ns, path.drop idx, pi⟩ (by simp [commitProbe, hm])]
      simp [hm]

/-- `Router.search` characterised: a `find?` over the backward probe
list, with the bare-root fallback. -/
theorem search_eq_find (r : Router) (method path : Str) :
    r.search method path =
      (match (revSegs path '/').find?
          (fun pr => (mGet (r.getMap method) (path.take pr.2.2)).isSome) with
       | some pr =>
         some ((mGet (r.getMap method) (path.take pr.2.2)).getD [],
               path.drop pr.2.2, pr.2.1)
       | none =>
         match mGet (r.getMap method) ['/'] with
         | some ns => some (ns, path, path.count '/')
         | none => none) := by
  simp only [Router.search, revSplitPathFn]
  rw [revAux_eq_probeFold, probeFold_commitProbe]
  cases hf : (revSegs path '/').find?
      (fun pr => (mGet (r.getMap method) (path.take pr.2.2)).isSome) with
  | none =>
    simp only [revSegs] at hf
    simp [hf]
  | some pr =>
    simp only [revSegs] at hf
    simp [hf]

/-- Every probe of the backward walk ends at most at `last`. -/
theorem revPieces_idx_le (s : Str) (sep : Char) :
    ∀ (n last pi : Nat), n ≤ last →
      ∀ pr ∈ revPieces s sep n last pi, pr.2.2 ≤ last := by
  intro n
  induction n with
  | zero => intro last pi _ pr hpr; simp [revPieces] at hpr
  | succ i ih =>
    intro last pi hn pr hpr
    simp only [revPieces] at hpr
    split at hpr
    · exact ih last pi (by omega) pr hpr
    · split at hpr
      · exact ih last pi (by omega) pr hpr
      · rcases List.mem_cons.mp hpr with h | h
        · subst h; simp
        · have := ih i (pi + 1) (le_refl i) pr h
          omega

/-- The probes of the backward walk have strictly decreasing cut
positions: earlier probes test longer leading portions of the path. -/
theorem revPieces_chain (s : Str) (sep : Char) :
    ∀ (n last pi : Nat), n ≤ last →
      List.Chain' (fun a b => b.2.2 < a.2.2) (revPieces s sep n last pi) := by
  intro n
  induction n with
  | zero => intro last pi _; simp [revPieces]
  | succ i ih =>
    intro last pi hn
    simp only [revPieces]
    split
    · exact ih last pi (by omega)
    · split
      · exact ih last pi (by omega)
      · rw [List.chain'_cons']
        refine ⟨?_, ih i (pi + 1) (le_refl i)⟩
        intro b hb
        have hmem : b ∈ revPieces s sep i i (pi + 1) := List.mem_of_mem_head? hb
        have := revPieces_idx_le s sep i i (pi + 1) (le_refl i) b hmem
        show b.2.2 < last
        omega

/-- Every probe of the backward walk cuts at the end of the string or
just before a separator byte. -/
theorem revPieces_boundary (s : Str) (sep : Char) :
    ∀ (n last pi : Nat), (last = s.length ∨ s.getD last ' ' = sep) →
      ∀ pr ∈ revPieces s sep n last pi,
        pr.2.2 = s.length ∨ s.getD pr.2.2 ' ' = sep := by
  intro n
  induction n with
  | zero => intro last pi _ pr hpr; simp [revPieces] at hpr
  | succ i ih =>
    intro last pi hlast pr hpr
    simp only [revPieces] at hpr
    split at hpr
    · exact ih last pi hlast pr hpr
    · split at hpr
      · exact ih last pi hlast pr hpr
      · rcases List.mem_cons.mp hpr with h | h
        · subst h
          simpa using hlast
        · rename_i hsep _
          push_neg at hsep
          exact ih i (pi + 1) (Or.inr hsep) pr h

/-- `find?` returns the first element satisfying the predicate. -/
theorem find?_of_first {α : Type} (p : α → Bool) :
    ∀ (l : List α) (i : Nat) (a : α), l.get? i = some a → p a = true →
      (∀ j b, j < i → l.get? j = some b → p b = false) →
      l.find? p = some a := by
  intro l
  induction l with
  | nil => intro i a ha; simp at ha
  | cons x t ih =>
    intro i a ha hp hbefore
    cases i with
    | zero =>
      simp only [List.get?_cons_zero, Option.some.injEq] at ha
      subst ha
      exact List.find?_cons_of_pos _ hp
    | succ k =>
      have hx : p x = false := hbefore 0 x (Nat.succ_pos k) rfl
      rw [List.find?_cons_of_neg _ (by simp [hx])]
      exact ih k a (by simpa using ha) hp
        (fun j b hj hjb => hbefore (j+1) b (by omega) (by simpa using hjb))

/-- The capture walk of `Router.match`, described declaratively
(the wording of the specification, §4.3 step 4): pair each remaining
segment with the node part of the same index; a literal part captures
nothing, a `Param` part captures the segment with its leading separator
stripped, and a `Wildcard` part captures the whole remaining path with
its leading separator stripped and ends the capture. -/
def specCapture (parts : List NodePart) (remaining : Str) :
    List (Str × Nat × Nat) → List Param
  | [] => []
  | (seg, pi, _) :: rest =>
    match parts[pi]? with
    | none => specCapture parts remaining rest
    | some np =>
      if partType np = ':' then (partName np, seg.tail) :: specCapture parts remaining rest
      else if partType np = '*' then [(partName np, remaining.tail)]
      else specCapture parts remaining rest

/-- Folding the capture closure is exactly the declarative capture. -/
theorem probeFold_captureProbe (parts : List NodePart) (remaining : Str) :
    ∀ (probes : List (Str × Nat × Nat)) (acc : List Param),
      (probeFold (captureProbe parts remaining) probes acc).1 =
        acc ++ specCapture parts remaining probes := by
  intro probes
  induction probes with
  | nil => intro acc; simp [probeFold, specCapture]
  | cons pr rest ih =>
    intro acc
    rcases pr with ⟨seg, pi, idx⟩
    cases hnp : parts[pi]? with
    | none =>
      rw [probeFold_cons_go _ _ _ _ _ acc acc (by simp [captureProbe, hnp]), ih acc]
      simp [specCapture, hnp]
    | some np =>
      by_cases hc : partType np = ':'
      · rw [probeFold_cons_go _ _ _ _ _ acc (acc ++ [(partName np, seg.tail)])
          (by simp [captureProbe, hnp, hc]), ih (acc ++ [(partName np, seg.tail)])]
        simp [specCapture, hnp, hc]
      · by_cases hs : partType np = '*'
        · rw [probeFold_cons_stop _ _ _ _ _ acc (acc ++ [(partName np, remaining.tail)])
            (by simp [captureProbe, hnp, hc, hs])]
          simp [specCapture, hnp, hc, hs]
        · rw [probeFold_cons_go _ _ _ _ _ acc acc
            (by simp [captureProbe, hnp, hc, hs]), ih acc]
          simp [specCapture, hnp, hc, hs]

/-- Every pair the declarative capture produces is named by a `Param` or
`Wildcard` part of the node; literal parts contribute nothing. -/
theorem specCapture_mem (parts : List NodePart) (remaining : Str) :
    ∀ (probes : List (Str × Nat × Nat)) (pr : Param),
      pr ∈ specCapture parts remaining probes →
      ∃ np ∈ parts, (partType np = ':' ∨ partType np = '*') ∧ pr.1 = partName np := by
  intro probes
  induction probes with
  | nil => intro pr hpr; simp [specCapture] at hpr
  | cons pb rest ih =>
    intro pr hpr
    rcases pb with ⟨seg, pi, idx⟩
    cases hnp : parts[pi]? with
    | none =>
      simp only [specCapture, hnp] at hpr
      exact ih pr hpr
    | some np =>
      simp only [specCapture, hnp] at hpr
      have hmem : np ∈ parts := List.get?_mem (by simpa [List.get?_eq_getElem?] using hnp)
      by_cases hc : partType np = ':'
      · rw [if_pos hc] at hpr
        rcases List.mem_cons.mp hpr with h | h
        · exact ⟨np, hmem, Or.inl hc, by rw [h]⟩
        · exact ih pr h
      · rw [if_neg hc] at hpr
        by_cases hs : partType np = '*'
        · rw [if_pos hs] at hpr
          rcases List.mem_singleton.mp hpr with h
          exact ⟨np, hmem, Or.inr hs, by rw [h]⟩
        · rw [if_neg hs] at hpr
          exact ih pr hpr

/-!  Stage lemmas for `Router.match`. -/

/-- A failed static-head search means nil handler and nil params. -/
theorem matchPath_of_search_none (r : Router) (method path : Str)
    (hs : r.search method path = none) : r.matchPath method path = (none, none) := by
  unfold Router.matchPath
  rw [hs]

/-- The handler returned by `match` is the handler of the node selected
from the bucket (when the search produced one). -/
theorem matchPath_handler (r : Router) (method path : Str) (nn : List Node)
    (path2 : Str) (nsep : Nat) (hs : r.search method path = some (nn, path2, nsep)) :
    (r.matchPath method path).1 = (selectNode nn nsep).map Node.h := by
  unfold Router.matchPath
  rw [hs]
  cases hsel : selectNode nn nsep with
  | none => simp [hsel]
  | some rn =>
    by_cases hz : rn.parts.length = 0 <;> simp [hsel, hz]

/-- No qualifying node in the bucket: nil handler and nil params. -/
theorem matchPath_of_select_none (r : Router) (method path : Str) (nn : List Node)
    (path2 : Str) (nsep : Nat) (hs : r.search method path = some (nn, path2, nsep))
    (hsel : selectNode nn nsep = none) : r.matchPath method path = (none, none) := by
  unfold Router.matchPath
  rw [hs]
  simp [hsel]

/-- A selected node without parts returns its handler at once, touching
no pool. -/
theorem matchPath_static (r : Router) (method path : Str) (nn : List Node)
    (path2 : Str) (nsep : Nat) (rn : Node)
    (hs : r.search method path = some (nn, path2, nsep))
    (hsel : selectNode nn nsep = some rn) (hz : rn.parts.length = 0) :
    r.matchPath method path = (some rn.h, none) := by
  unfold Router.matchPath
  rw [hs]
  simp [hsel, hz]

/-- A selected node with parts returns its handler together with the
declarative capture of the remaining path against its parts. -/
theorem matchPath_capture (r : Router) (method path : Str) (nn : List Node)
    (path2 : Str) (nsep : Nat) (rn : Node)
    (hs : r.search method path = some (nn, path2, nsep))
    (hsel : selectNode nn nsep = some rn) (hz : rn.parts.length ≠ 0) :
    r.matchPath method path
      = (some rn.h, some (specCapture rn.parts path2 (fwdSegs path2 '/'))) := by
  unfold Router.matchPath
  rw [hs]
  have hcap : (splitPathFn path2 '/' (captureProbe rn.parts path2) ([] : List Param)).1
      = specCapture rn.parts path2 (fwdSegs path2 '/') := by
    unfold splitPathFn fwdSegs
    rw [fwdAux_eq_probeFold, probeFold_captureProbe]
    simp
  simp [hsel, hz, hcap]

/-!  Support lemmas for the static-route theorem. -/

theorem takeRun_nospecial (s : Str) (h : ∀ c ∈ s, isSpecial c = false) :
    takeRun s = (s, []) := by
  induction s with
  | nil => rfl
  | cons c cs ih =>
    have hc : isSpecial c = false := h c (List.mem_cons_self c cs)
    simp [takeRun, hc, ih (fun x hx => h x (List.mem_cons_of_mem c hx))]

theorem reFindAllAux_nil (fuel : Nat) : reFindAllAux fuel [] = [] := by
  cases fuel <;> rfl

/-- A nonempty pattern with no `':'` or `'*'` byte is one single regex
match: the whole pattern. -/
theorem reFindAll_nospecial (s : Str) (h : ∀ c ∈ s, isSpecial c = false)
    (hne : s ≠ []) : reFindAll s = [s] := by
  obtain ⟨c, cs, rfl⟩ := List.exists_cons_of_ne_nil hne
  have hc : isSpecial c = false := h c (List.mem_cons_self c cs)
  unfold reFindAll
  simp only [List.length_cons, reFindAllAux, reMatchStep, hc]
  rw [takeRun_nospecial (c :: cs) h]
  simp [reFindAllAux_nil]

/-- A purely static pattern compiles to itself: no parts, no params, no
stars. -/
theorem splitPathToParts_nospecial (p : Str) (h : ∀ c ∈ p, isSpecial c = false)
    (hne : p ≠ []) : splitPathToParts p = (p, [], 0, 0) := by
  unfold splitPathToParts
  rw [reFindAll_nospecial p h hne]
  rfl

theorem substr_length (s : Str) (a b : Nat) :
    (substr s a b).length = min b s.length - a := by
  simp [substr]

/-- When a separator occurs below `n`, the backward walk emits a first
probe that cuts at `last` (for the whole-string walk: at the very end,
so the first probe tests the whole path). -/
theorem revPieces_hasSep (s : Str) (sep : Char) :
    ∀ (n last pi : Nat), n ≤ last → last ≤ s.length →
      (∃ j, j < n ∧ s.getD j ' ' = sep) →
      ∃ ss tl, ss ≠ [] ∧ revPieces s sep n last pi = (ss, pi, last) :: tl := by
  intro n
  induction n with
  | zero =>
    intro last pi _ _ hj
    obtain ⟨j, hj, _⟩ := hj
    omega
  | succ i ih =>
    intro last pi hn hlast hj
    by_cases hsep : s.getD i ' ' = sep
    · have hlen : (substr s i last).length = last - i := by
        rw [substr_length]
        omega
      have hne : substr s i last ≠ [] := by
        intro hcon
        rw [hcon] at hlen
        simp at hlen
        omega
      have hsep' : s[i]?.getD ' ' = sep := by
        simpa [List.getD] using hsep
      have hstep : revPieces s sep (i+1) last pi
          = (substr s i last, pi, last) :: revPieces s sep i i (pi + 1) := by
        simp [revPieces, hsep', hne]
      exact ⟨substr s i last, revPieces s sep i i (pi + 1), hne, hstep⟩
    · obtain ⟨j, hjn, hjs⟩ := hj
      have hji : j ≠ i := fun hcon => hsep (hcon ▸ hjs)
      have hsep' : ¬ s[i]?.getD ' ' = sep := by
        simpa [List.getD] using hsep
      have hstep : revPieces s sep (i+1) last pi = revPieces s sep i last pi := by
        simp [revPieces, hsep']
      rw [hstep]
      exact ih last pi (by omega) hlast ⟨j, by omega, hjs⟩

/-- A method whose table answers no lookup (unknown method string, or a
known method with an empty table) makes the search fail outright. -/
theorem search_none_of_empty (r : Router) (method path : Str)
    (hm : ∀ key, mGet (r.getMap method) key = none) :
    r.search method path = none := by
  simp only [Router.search, revSplitPathFn]
  rw [revAux_eq_probeFold,
    probeFold_never _ (fun st ss pi idx => by simp [commitProbe, hm]) _ _]
  simp [hm]

/-!  Concrete route tables used to instantiate the claims (all built
through `AddRoute`, from the empty router `New` returns). -/

def strGET : Str := "GET".toList

def strHEAD : Str := "HEAD".toList

/-- Routes `/users/:id` (handler 1) and `/users/:id/:action` (handler 2). -/
def rUsers : Router :=
  ((((Router.new none).AddRoute [] strGET "/users/:id".toList 1).router).AddRoute
    [] strGET "/users/:id/:action".toList 2).router

/-- Route `/files/*rest` (handler 4). -/
def rFiles : Router :=
  ((Router.new none).AddRoute [] strGET "/files/*rest".toList 4).router

/-- Route `/a/:x/b` (handler 5): a literal part after a param part. -/
def rLit : Router :=
  ((Router.new none).AddRoute [] strGET "/a/:x/b".toList 5).router

/-- Static route `/x/` (handler 6): trailing slash. -/
def rTrail : Router :=
  ((Router.new none).AddRoute [] strGET "/x/".toList 6).router

/-- Static route `x` (handler 7): no slash at all. -/
def rNoSlash : Router :=
  ((Router.new none).AddRoute [] strGET "x".toList 7).router

/-- Route `/a/b/*w` (handler 9) registered before static `/a/b`
(handler 8): both land in bucket `/a/b`. -/
def rShadow : Router :=
  ((((Router.new none).AddRoute [] strGET "/a/b/*w".toList 9).router).AddRoute
    [] strGET "/a/b".toList 8).router

/-- Route `/static/*fp` (handler 3). -/
def rStar : Router :=
  ((Router.new none).AddRoute [] strGET "/static/*fp".toList 3).router

/-- Route `/h` (handler 13) registered for GET only. -/
def rGetOnly : Router :=
  ((Router.new none).AddRoute [] strGET "/h".toList 13).router

/-- Route `/h` for GET only, on a router with `NoAutoHeadToGet` set. -/
def rGetOnlyNoFb : Router :=
  ((Router.new (some { NoAutoHeadToGet := true })).AddRoute [] strGET "/h".toList 13).router

/-- The pool invariant of §4.4: every held buffer is empty and sized to
the current `maxParams`. -/
def poolInv (maxParams : Nat) (pool : List PBuf) : Prop :=
  ∀ b ∈ pool, b.p = [] ∧ b.cap = maxParams

/-- C7: `putParams` keeps only empty buffers of capacity `maxParams`:
it returns a buffer to the pool exactly when its capacity is the current
`maxParams` (truncated to length zero first) and discards it otherwise,
so a buffer later obtained from the pool is empty whatever its prior
contents were. -/
theorem claim_C7 (maxParams : Nat) (pool : List PBuf) (b : PBuf)
    (hinv : poolInv maxParams pool) :
    poolInv maxParams (putParams maxParams pool b)
    ∧ (b.cap = maxParams → putParams maxParams pool b = ⟨[], maxParams⟩ :: pool)
    ∧ (b.cap ≠ maxParams → putParams maxParams pool b = pool)
    ∧ (getParams maxParams (putParams maxParams pool b)).1.p = []
    ∧ (getParams maxParams (putParams maxParams pool b)).1.cap = maxParams := by
  have hinv2 : poolInv maxParams (putParams maxParams pool b) := by
    intro x hx
    unfold putParams at hx
    split at hx
    · exact hinv x hx
    · rename_i hcap
      rcases List.mem_cons.mp hx with h | h
      · subst h
        refine ⟨rfl, ?_⟩
        show b.cap = maxParams
        omega
      · exact hinv x h
  refine ⟨hinv2, ?_, ?_, ?_, ?_⟩
  · intro hcap
    unfold putParams
    rw [if_neg (by omega)]
    rw [hcap]
  · intro hcap
    unfold putParams
    rw [if_pos hcap]
  · cases hp : putParams maxParams pool b with
    | nil => rfl
    | cons x xs =>
      have := hinv2 x (by rw [hp]; exact List.mem_cons_self x xs)
      simp [getParams, this.1]
  · cases hp : putParams maxParams pool b with
    | nil => rfl
    | cons x xs =>
      have := hinv2 x (by rw [hp]; exact List.mem_cons_self x xs)
      simp [getParams, this.2]

/-- Witness for C7 at a concrete pool: releasing a dirty buffer of the
right capacity yields a pool of empty buffers, and the next acquire is
empty. -/
theorem claim_C7_witness :
    poolInv 2 (putParams 2 [⟨[], 2⟩] ⟨[(['a'], ['b'])], 2⟩)
    ∧ (getParams 2 (putParams 2 [⟨[], 2⟩] ⟨[(['a'], ['b'])], 2⟩)).1.p = [] := by
  have h := claim_C7 2 [⟨[], 2⟩] ⟨[(['a'], ['b'])], 2⟩
    (fun x hx => by rcases List.mem_singleton.mp hx with rfl; exact ⟨rfl, rfl⟩)
  exact ⟨h.1, h.2.2.2.1⟩

/-- C8: a HEAD request whose HEAD-table lookup found no handler falls
back to the GET table when `NoAutoHeadToGet` is unset; with the option
set, `Match` returns the HEAD-table result itself. -/
theorem claim_C8 (r : Router) (path : Str) :
    ((r.matchPath strHEAD path).1 = none → r.opts.NoAutoHeadToGet = false →
      r.MatchPath strHEAD path
        = ((r.matchPath strGET path).1, pwParams (r.matchPath strGET path).2))
    ∧ (r.opts.NoAutoHeadToGet = true →
      r.MatchPath strHEAD path
        = ((r.matchPath strHEAD path).1, pwParams (r.matchPath strHEAD path).2)) := by
  constructor
  · intro hh hflag
    simp only [Router.MatchPath]
    rw [if_pos (show (r.matchPath strHEAD path).1 = none ∧ strHEAD = "HEAD".toList
        ∧ (!r.opts.NoAutoHeadToGet) = true from ⟨hh, rfl, by rw [hflag]; rfl⟩)]
    rfl
  · intro hflag
    simp only [Router.MatchPath]
    rw [if_neg (show ¬ ((r.matchPath strHEAD path).1 = none ∧ strHEAD = "HEAD".toList
        ∧ (!r.opts.NoAutoHeadToGet) = true) from fun hcon => by
      have := hcon.2.2
      rw [hflag] at this
      simp at this)]

/-- Witness for C8: with only GET `/h` registered, a HEAD request for
`/h` is answered from the GET table. -/
theorem claim_C8_witness :
    rGetOnly.MatchPath strHEAD "/h".toList
      = ((rGetOnly.matchPath strGET "/h".toList).1,
         pwParams (rGetOnly.matchPath strGET "/h".toList).2)
    ∧ rGetOnlyNoFb.MatchPath strHEAD "/h".toList
      = ((rGetOnlyNoFb.matchPath strHEAD "/h".toList).1,
         pwParams (rGetOnlyNoFb.matchPath strHEAD "/h".toList).2) :=
  ⟨(claim_C8 rGetOnly "/h".toList).1 (by decide) rfl,
   (claim_C8 rGetOnlyNoFb "/h".toList).2 rfl⟩

/-!  Compilation of a trailing-wildcard pattern `key ++ "/*" ++ name`
(static head `key`, wildcard name `name`), needed by C9. -/

theorem takeRun_append (xs ys : Str) (hxs : ∀ c ∈ xs, isSpecial c = false) :
    takeRun (xs ++ ys) = (xs ++ (takeRun ys).1, (takeRun ys).2) := by
  induction xs with
  | nil => simp
  | cons c t ih =>
    have hc : isSpecial c = false := hxs c (List.mem_cons_self c t)
    have ht := ih (fun x hx => hxs x (List.mem_cons_of_mem c hx))
    simp [takeRun, hc, ht]

theorem reFindAllAux_star (name : Str) (hne : name ≠ [])
    (hsp : ∀ c ∈ name, isSpecial c = false) :
    ∀ fuel, name.length + 1 ≤ fuel → reFindAllAux fuel ('*' :: name) = ['*' :: name] := by
  intro fuel hf
  obtain ⟨f, rfl⟩ : ∃ f, fuel = f + 1 := ⟨fuel - 1, by omega⟩
  obtain ⟨d, name', rfl⟩ := List.exists_cons_of_ne_nil hne
  have hd : isSpecial d = false := hsp d (List.mem_cons_self d name')
  have hstar : isSpecial '*' = true := rfl
  have hstep : reMatchStep ('*' :: d :: name') = some ('*' :: d :: name', []) := by
    simp [reMatchStep, hstar, hd, takeRun_nospecial (d :: name') hsp]
  simp only [reFindAllAux, hstep]
  rw [reFindAllAux_nil]

theorem reMatchStep_static_head (key name : Str) (hkne : key ≠ [])
    (hksp : ∀ c ∈ key, isSpecial c = false) :
    reMatchStep (key ++ '/' :: '*' :: name) = some (key ++ ['/'], '*' :: name) := by
  obtain ⟨c, key', rfl⟩ := List.exists_cons_of_ne_nil hkne
  have hc : isSpecial c = false := hksp c (List.mem_cons_self c key')
  have htr : takeRun (c :: (key' ++ '/' :: '*' :: name))
      = (c :: (key' ++ ['/']), '*' :: name) := by
    have h0 := takeRun_append (c :: key') ('/' :: '*' :: name) hksp
    simpa using h0
  show reMatchStep (c :: (key' ++ '/' :: '*' :: name)) = some (c :: (key' ++ ['/']), '*' :: name)
  simp [reMatchStep, hc, htr]

theorem reFindAll_star_pattern (key name : Str) (hkne : key ≠ [])
    (hksp : ∀ c ∈ key, isSpecial c = false) (hnne : name ≠ [])
    (hnsp : ∀ c ∈ name, isSpecial c = false) :
    reFindAll (key ++ '/' :: '*' :: name) = [key ++ ['/'], '*' :: name] := by
  unfold reFindAll
  have hlen : (key ++ '/' :: '*' :: name).length = key.length + name.length + 2 := by
    simp
    omega
  have hkpos : 1 ≤ key.length := List.length_pos.mpr hkne
  obtain ⟨f, hf⟩ : ∃ f, (key ++ '/' :: '*' :: name).length = f + 1 :=
    ⟨(key ++ '/' :: '*' :: name).length - 1, by omega⟩
  rw [hf]
  simp only [reFindAllAux, reMatchStep_static_head key name hkne hksp]
  rw [reFindAllAux_star name hnne hnsp f (by omega)]

theorem substr_all (s : Str) : substr s 0 s.length = s := by
  simp [substr]

/-- On a separator-free nonempty string the forward walk hands its
callback the single piece: the whole string. -/
theorem splitPathFnAux_nosep {σ : Type} (s : Str) (sep : Char)
    (fn : σ → Str → Nat → Nat → σ × Bool) :
    ∀ (suf : Str) (i last pi : Nat) (st : σ), suf ≠ [] →
      (∀ c ∈ suf, c ≠ sep) → substr s last s.length ≠ [] →
      splitPathFnAux s sep fn suf i last pi st = fn st (substr s last s.length) pi s.length := by
  intro suf
  induction suf with
  | nil => intro i last pi st hne; exact absurd rfl hne
  | cons c tl ih =>
    intro i last pi st _ hsf hsub
    have hc : c ≠ sep := hsf c (List.mem_cons_self c tl)
    by_cases htl : tl = []
    · subst htl
      rw [splitPathFnAux]
      rw [if_neg (by simp), if_pos hc,
        if_neg (by simpa [List.isEmpty_iff] using hsub)]
    · rw [splitPathFnAux]
      rw [if_pos ⟨hc, htl⟩]
      exact ih (i+1) last pi st htl
        (fun x hx => hsf x (List.mem_cons_of_mem c hx)) hsub

theorem splitPathFn_nosep {σ : Type} (s : Str) (sep : Char)
    (fn : σ → Str → Nat → Nat → σ × Bool) (st : σ) (hne : s ≠ [])
    (hs : ∀ c ∈ s, c ≠ sep) :
    splitPathFn s sep fn st = fn st s 0 s.length := by
  unfold splitPathFn
  rw [splitPathFnAux_nosep s sep fn s 0 0 0 st hne hs (by rw [substr_all]; exact hne),
    substr_all]

theorem splitPathToParts_star (key name : Str) (hkne : key ≠ [])
    (hksp : ∀ c ∈ key, isSpecial c = false) (hnne : name ≠ [])
    (hnsp : ∀ c ∈ name, isSpecial c = false) (hnsl : ∀ c ∈ name, c ≠ '/') :
    splitPathToParts (key ++ '/' :: '*' :: name)
      = (key ++ ['/'], ['*' :: name], 1, 1) := by
  unfold splitPathToParts
  rw [reFindAll_star_pattern key name hkne hksp hnne hnsp]
  have hsplit : splitPathFn ('*' :: name) '/' classifyPart
      (([] : List NodePart), 0, 0) = ((['*' :: name], 1, 1), false) := by
    rw [splitPathFn_nosep ('*' :: name) '/' classifyPart _ (by simp)
      (fun c hc => by
        rcases List.mem_cons.mp hc with h | h
        · rw [h]; decide
        · exact hnsl c h)]
    rfl
  simp only [List.length_cons, List.length_nil]
  rw [if_neg (by omega)]
  simp only [List.headD, List.tail, List.foldl]
  rw [hsplit]

/-- Registering a trailing-wildcard pattern stores a single star node
under the stripped static head, and raises `maxParams` to 1. -/
theorem AddRoute_star (key name g method : Str) (mth : Method) (hid : Nat)
    (hm : methodOfString method = some mth) (hkne : key ≠ [])
    (hksp : ∀ c ∈ key, isSpecial c = false) (hnne : name ≠ [])
    (hnsp : ∀ c ∈ name, isSpecial c = false) (hnsl : ∀ c ∈ name, c ≠ '/') :
    ((Router.new none).AddRoute g method (key ++ '/' :: '*' :: name) hid).router
      = { methods := fun m' => if m' = mth then [(key, [⟨g, hid, ['*' :: name]⟩])] else [],
          maxParams := 1, opts := {} } := by
  unfold Router.AddRoute
  rw [splitPathToParts_star key name hkne hksp hnne hnsp hnsl]
  have c1 : ¬ (1 : Nat) > 1 := by omega
  have c2 : ¬ ((1 : Nat) = 1 ∧ partType ((['*' :: name] : List NodePart).getLastD []) ≠ '*') := by
    simp [partType]
  have c3 : (key ++ ['/']).length > 1 ∧ (key ++ ['/']).getLastD ' ' = '/' := by
    constructor
    · have := List.length_pos.mpr hkne
      simp
      omega
    · rw [List.getLastD_concat]
  simp only [if_neg c1, if_neg c2, if_pos c3, hm, List.dropLast_concat]
  rfl

/-- C9: a trailing-wildcard route — static head `key`, wildcard `name`,
the only registered route — answers both the bare head and the head
followed by a lone trailing slash with its handler and a params list
containing no pair at all: the wildcard name is absent, not bound to an
empty string.  The concrete instances pin `/static/*fp`, whose search
result for `/static` shows the wildcard bypassing the part-count check
(`nsep` is 0 against one part). -/
theorem claim_C9 :
    (∀ (key name g method : Str) (mth : Method) (hid : Nat),
      methodOfString method = some mth →
      key ≠ [] → (∀ c ∈ key, isSpecial c = false) → '/' ∈ key →
      name ≠ [] → (∀ c ∈ name, isSpecial c = false) → (∀ c ∈ name, c ≠ '/') →
      (((Router.new none).AddRoute g method (key ++ '/' :: '*' :: name) hid).router).matchPath
          method key = (some hid, some [])
      ∧ (((Router.new none).AddRoute g method (key ++ '/' :: '*' :: name) hid).router).matchPath
          method (key ++ ['/']) = (some hid, some []))
    ∧ rStar.matchPath strGET "/static".toList = (some 3, some [])
    ∧ rStar.matchPath strGET "/static/".toList = (some 3, some [])
    ∧ rStar.search strGET "/static".toList
        = some ([⟨[], 3, ["*fp".toList]⟩], [], 0) := by
  refine ⟨?_, by decide, by decide, by decide⟩
  intro key name g method mth hid hm hkne hksp hksep hnne hnsp hnsl
  rw [AddRoute_star key name g method mth hid hm hkne hksp hnne hnsp hnsl]
  set nd : Node := ⟨g, hid, ['*' :: name]⟩ with hnd
  set r' : Router :=
    { methods := fun m' => if m' = mth then [(key, [nd])] else [],
      maxParams := 1, opts := {} } with hr'
  have hmap : r'.getMap method = some [(key, [nd])] := by
    simp [Router.getMap, hm, hr']
  obtain ⟨j, hj, hjv⟩ := List.getElem_of_mem hksep
  have hsel1 : selectNode [nd] 0 = some nd := rfl
  have hsel2 : selectNode [nd] 1 = some nd := rfl
  have hndlen : nd.parts.length ≠ 0 := by simp [hnd]
  constructor
  · -- match on the bare static head
    have hjd : key.getD j ' ' = '/' := by
      rw [List.getD_eq_getElem key ' ' hj, hjv]
    obtain ⟨ss, tl, hssne, hrev⟩ := revPieces_hasSep key '/'
      key.length key.length 0 le_rfl le_rfl ⟨j, hj, hjd⟩
    have hfull : mGet (r'.getMap method) key = some [nd] := by
      rw [hmap]
      simp [mGet, rmGet]
    have hsearch : r'.search method key = some ([nd], [], 0) := by
      rw [search_eq_find]
      have hsegs : revSegs key '/' = (ss, 0, key.length) :: tl := hrev
      rw [hsegs, List.find?_cons_of_pos _ (by simp [List.take_length, hfull])]
      simp [List.take_length, hfull, List.drop_length]
    rw [matchPath_capture r' method key [nd] [] 0 nd hsearch hsel1 hndlen]
    rfl
  · -- match on the head followed by a lone trailing slash
    set s : Str := key ++ ['/'] with hset
    have hslen : s.length = key.length + 1 := by simp [hset]
    have hkeyne : ¬ (key = s) := by
      intro hcon
      have := congrArg List.length hcon
      simp [hset] at this
    -- first backward step: the lone trailing slash gives the whole-path probe
    have hstep1 : revPieces s '/' s.length s.length 0
        = (['/'], 0, s.length) :: revPieces s '/' key.length key.length 1 := by
      have hchar : s[key.length]? = some '/' := by
        rw [hset]
        exact List.getElem?_concat_length key '/'
      have hgetD : s.getD key.length ' ' = '/' := by
        have h1 : s.getD key.length ' ' = s[key.length]?.getD ' ' := by
          simp [List.getD, List.get?_eq_getElem?]
        rw [h1, hchar]
        rfl
      have hsub : substr s key.length s.length = ['/'] := by
        rw [substr, List.take_length, hset, List.drop_left]
      rw [hslen] at hsub
      rw [hslen, revPieces]
      rw [if_neg (fun hcon => hcon hgetD), if_neg (by rw [hsub]; simp), hsub, ← hslen]
    -- remaining backward steps: the probe cutting exactly at the head
    obtain ⟨j2, hj2, hj2v⟩ := List.getElem_of_mem hksep
    have hj2d : s.getD j2 ' ' = '/' := by
      have hq : s[j2]? = some '/' := by
        rw [hset, List.getElem?_append_left hj2, List.getElem?_eq_getElem hj2, hj2v]
      have h1 : s.getD j2 ' ' = s[j2]?.getD ' ' := by
        simp [List.getD, List.get?_eq_getElem?]
      rw [h1, hq]
      rfl
    obtain ⟨ss2, tl2, hss2ne, hrev2⟩ := revPieces_hasSep s '/'
      key.length key.length 1 le_rfl (by omega) ⟨j2, hj2, hj2d⟩
    have hprobe1 : mGet (r'.getMap method) s = none := by
      rw [hmap]
      simp [mGet, rmGet, hkeyne]
    have htake : s.take key.length = key := by
      rw [hset]
      exact List.take_left key ['/']
    have hprobe2 : mGet (r'.getMap method) (s.take key.length) = some [nd] := by
      rw [htake, hmap]
      simp [mGet, rmGet]
    have hsearch : r'.search method s = some ([nd], ['/'], 1) := by
      rw [search_eq_find]
      have hsegs : revSegs s '/'
          = (['/'], 0, s.length) :: (ss2, 1, key.length) :: tl2 := by
        rw [revSegs, hstep1, hrev2]
      rw [hsegs, List.find?_cons_of_neg _ (by simp [List.take_length, hprobe1]),
        List.find?_cons_of_pos _ (by simp [hprobe2])]
      have hdrop : s.drop key.length = ['/'] := by
        rw [hset]
        exact List.drop_left key ['/']
      simp [hprobe2, hdrop]
    rw [matchPath_capture r' method s [nd] ['/'] 1 nd hsearch hsel2 hndlen]
    rfl

/-- C10: a method string outside the nine the router stores tables for,
or a known method whose table is empty, matches nothing: nil handler and
nil params for every path, with every lookup total. -/
theorem claim_C10 (r : Router) (method path : Str) :
    (methodOfString method = none → r.matchPath method path = (none, none))
    ∧ (∀ mth : Method, methodOfString method = some mth → r.methods mth = [] →
      r.matchPath method path = (none, none)) := by
  constructor
  · intro hm
    apply matchPath_of_search_none
    apply search_none_of_empty
    intro key
    simp [Router.getMap, hm, mGet]
  · intro mth hm hempty
    apply matchPath_of_search_none
    apply search_none_of_empty
    intro key
    simp [Router.getMap, hm, mGet, hempty, rmGet]

/-- Witness for C10: the unregistered method string `BREW`, and GET on a
fresh router, both match nothing. -/
theorem claim_C10_witness :
    (Router.new none).matchPath "BREW".toList "/x".toList = (none, none)
    ∧ (Router.new none).matchPath strGET "/x".toList = (none, none) :=
  ⟨(claim_C10 (Router.new none) "BREW".toList "/x".toList).1 (by decide),
   (claim_C10 (Router.new none) strGET "/x".toList).2 Method.GET (by decide) rfl⟩

/-- C6: a pattern compiling to two or more stars fails with
`TooManyStars`; exactly one star that is not the last part fails with
`StarNotLast`; the failure is a returned error under
`NoPanicOnInvalidAddRoute` and a panic otherwise, and the route table is
left untouched either way.  The concrete instances pin the two-star and
star-not-last patterns in both modes. -/
theorem claim_C6 :
    (∀ (r : Router) (g method route : Str) (hid : Nat)
       (p : Str) (rest : List NodePart) (num stars : Nat),
       splitPathToParts route = (p, rest, num, stars) →
       ((stars > 1 →
          r.AddRoute g method route hid
            = ⟨r, some .TooManyStars, !r.opts.NoPanicOnInvalidAddRoute⟩)
        ∧ (stars = 1 → partType (rest.getLastD []) ≠ '*' →
          r.AddRoute g method route hid
            = ⟨r, some .StarNotLast, !r.opts.NoPanicOnInvalidAddRoute⟩)))
    ∧ (Router.new none).AddRoute [] strGET "/a/*x/*y".toList 1
        = ⟨Router.new none, some .TooManyStars, true⟩
    ∧ ((Router.new (some { NoPanicOnInvalidAddRoute := true })).AddRoute
        [] strGET "/a/*x/*y".toList 1).err = some .TooManyStars
    ∧ ((Router.new (some { NoPanicOnInvalidAddRoute := true })).AddRoute
        [] strGET "/a/*x/*y".toList 1).panicked = false
    ∧ (Router.new none).AddRoute [] strGET "/a/*x/b".toList 1
        = ⟨Router.new none, some .StarNotLast, true⟩
    ∧ ((Router.new (some { NoPanicOnInvalidAddRoute := true })).AddRoute
        [] strGET "/a/*x/b".toList 1).err = some .StarNotLast
    ∧ ((Router.new (some { NoPanicOnInvalidAddRoute := true })).AddRoute
        [] strGET "/a/*x/b".toList 1).panicked = false := by
  refine ⟨?_, rfl, rfl, rfl, rfl, rfl, rfl⟩
  intro r g method route hid p rest num stars hsplit
  constructor
  · intro hstars
    unfold Router.AddRoute
    rw [hsplit]
    simp only [if_pos hstars]
    cases hflag : r.opts.NoPanicOnInvalidAddRoute <;> simp [hflag]
  · intro hstars hlast
    unfold Router.AddRoute
    rw [hsplit]
    have h1 : ¬ stars > 1 := by omega
    have h2 : stars = 1 ∧ partType (rest.getLastD []) ≠ '*' := ⟨hstars, hlast⟩
    simp only [if_neg h1, if_pos h2]
    cases hflag : r.opts.NoPanicOnInvalidAddRoute <;> simp [hflag]

/-- Witness for C6: the general branch applied to the concrete two-star
pattern under the non-strict flag. -/
theorem claim_C6_witness :
    (Router.new (some { NoPanicOnInvalidAddRoute := true })).AddRoute
        [] strGET "/a/*x/*y".toList 1
      = ⟨Router.new (some { NoPanicOnInvalidAddRoute := true }),
         some .TooManyStars, false⟩ :=
  (claim_C6.1 (Router.new (some { NoPanicOnInvalidAddRoute := true }))
    [] strGET "/a/*x/*y".toList 1
    "/a/".toList ["*x".toList, "*y".toList] 2 2 (by decide)).1 (by decide)

/-- C1: once the search has committed to a bucket and a separator count,
the node chosen is the first node in registration order whose part count
equals `nsep` or whose final part is a wildcard; and when no node of the
bucket qualifies, the match returns no handler and no params. -/
theorem claim_C1 (r : Router) (method path : Str) (nn : List Node) (path2 : Str)
    (nsep : Nat) (hs : r.search method path = some (nn, path2, nsep)) :
    (∀ (i : Nat) (rn : Node), nn.get? i = some rn → qualifies rn nsep = true →
      (∀ (j : Nat) (b : Node), j < i → nn.get? j = some b → qualifies b nsep = false) →
      (r.matchPath method path).1 = some rn.h)
    ∧ ((∀ n ∈ nn, qualifies n nsep = false) → r.matchPath method path = (none, none)) := by
  constructor
  · intro i rn hget hq hbefore
    have hsel : selectNode nn nsep = some rn :=
      find?_of_first _ nn i rn hget hq hbefore
    rw [matchPath_handler r method path nn path2 nsep hs, hsel]
    rfl
  · intro hnone
    have hsel : selectNode nn nsep = none :=
      List.find?_eq_none.mpr (fun x hx => by simp [hnone x hx])
    exact matchPath_of_select_none r method path nn path2 nsep hs hsel

/-- Witness for C1: with `/users/:id` (handler 1) registered before
`/users/:id/:action` (handler 2), the path `/users/42/delete` has
`nsep = 2`; node 0 does not qualify, node 1 does and wins. -/
theorem claim_C1_witness :
    rUsers.search strGET "/users/42/delete".toList
      = some ([⟨[], 1, [":id".toList]⟩, ⟨[], 2, [":id".toList, ":action".toList]⟩],
              "/42/delete".toList, 2)
    ∧ (rUsers.matchPath strGET "/users/42/delete".toList).1 = some 2 := by
  refine ⟨by decide, ?_⟩
  refine (claim_C1 rUsers strGET "/users/42/delete".toList
      [⟨[], 1, [":id".toList]⟩, ⟨[], 2, [":id".toList, ":action".toList]⟩]
      "/42/delete".toList 2 (by decide)).1 1
      ⟨[], 2, [":id".toList, ":action".toList]⟩ (by decide) (by decide) ?_
  intro j b hj hjb
  have hj0 : j = 0 := by omega
  subst hj0
  simp only [List.get?_cons_zero, Option.some.injEq] at hjb
  rw [← hjb]
  decide

/-- C2: the static-head search probes the `/`-boundaries of the path
from its end toward its start (the probe cuts are strictly decreasing,
each at the end of the path or at a separator) and commits to the first
— hence longest — boundary whose leading portion is registered; failing
that it falls back to the bare-root bucket with `nsep` the full count of
`/` bytes, and failing that too the match yields nil handler and
params. -/
theorem claim_C2 (r : Router) (method path : Str) :
    (r.search method path =
      match (revSegs path '/').find?
          (fun pr => (mGet (r.getMap method) (path.take pr.2.2)).isSome) with
      | some pr =>
        some ((mGet (r.getMap method) (path.take pr.2.2)).getD [],
              path.drop pr.2.2, pr.2.1)
      | none =>
        match mGet (r.getMap method) ['/'] with
        | some ns => some (ns, path, path.count '/')
        | none => none)
    ∧ List.Chain' (fun a b => b.2.2 < a.2.2) (revSegs path '/')
    ∧ (∀ pr ∈ revSegs path '/', pr.2.2 = path.length ∨ path.getD pr.2.2 ' ' = '/')
    ∧ (r.search method path = none → r.matchPath method path = (none, none)) := by
  refine ⟨search_eq_find r method path, ?_, ?_, matchPath_of_search_none r method path⟩
  · exact revPieces_chain path '/' path.length path.length 0 le_rfl
  · exact revPieces_boundary path '/' path.length path.length 0 (Or.inl rfl)

/-- Witness for C2: with nothing registered, no boundary is registered,
the root fallback is empty, and a path matches nothing. -/
theorem claim_C2_witness :
    (Router.new none).matchPath strGET "/y".toList = (none, none) :=
  (claim_C2 (Router.new none) strGET "/y".toList).2.2.2 (by decide)

/-- C3: a successful match of a node with parts returns exactly the
declarative capture: the remaining path's segments paired with the
node's parts in order — a param part takes the segment minus its leading
separator, a wildcard part takes the whole remaining path minus its
leading separator and ends the capture.  Concretely, `/files/*rest`
matched against `/files/a/b/c.txt` binds `rest` to `a/b/c.txt`. -/
theorem claim_C3 :
    (∀ (r : Router) (method path : Str) (nn : List Node) (path2 : Str) (nsep : Nat)
        (rn : Node),
      r.search method path = some (nn, path2, nsep) →
      selectNode nn nsep = some rn →
      rn.parts ≠ [] →
      r.matchPath method path
        = (some rn.h, some (specCapture rn.parts path2 (fwdSegs path2 '/'))))
    ∧ rFiles.matchPath strGET "/files/a/b/c.txt".toList
        = (some 4, some [("rest".toList, "a/b/c.txt".toList)]) := by
  constructor
  · intro r method path nn path2 nsep rn hs hsel hne
    exact matchPath_capture r method path nn path2 nsep rn hs hsel
      (fun hz => hne (List.length_eq_zero.mp hz))
  · decide

/-- Witness for C3 at the wildcard route `/files/*rest`. -/
theorem claim_C3_witness :
    rFiles.matchPath strGET "/files/a/b/c.txt".toList
      = (some 4, some (specCapture ["*rest".toList] "/a/b/c.txt".toList
          (fwdSegs "/a/b/c.txt".toList '/'))) :=
  claim_C3.1 rFiles strGET "/files/a/b/c.txt".toList
    [⟨[], 4, ["*rest".toList]⟩] "/a/b/c.txt".toList 3 ⟨[], 4, ["*rest".toList]⟩
    (by decide) (by decide) (by decide)

/-- Counterexample to C4 as stated: with `/a/:x/b` registered, the path
`/a/V/c` still matches (handler 5, `x = "V"`), although the literal part
`/b` of the selected node differs from the corresponding segment `/c`
of the matched path — literal equality is not guaranteed by the
length/head selection. -/
theorem claim_C4_cex :
    rLit.matchPath strGET "/a/V/c".toList = (some 5, some [("x".toList, "V".toList)])
    ∧ rLit.search strGET "/a/V/c".toList
        = some ([⟨[], 5, [":x".toList, "/b".toList]⟩], "/V/c".toList, 2)
    ∧ (fwdSegs "/V/c".toList '/').map (fun pr => pr.1) = ["/V".toList, "/c".toList]
    ∧ ("/b".toList : Str) ≠ "/c".toList := by
  decide

/-- C4 (amended): literal parts are never compared with — nor captured
from — the corresponding path segment: every captured pair is named by a
param or wildcard part, and a node matches even when a literal part
differs from its segment (`/a/:x/b` answers both `/a/V/b` and
`/a/V/c`). -/
theorem claim_C4 :
    (∀ (r : Router) (method path : Str) (nn : List Node) (path2 : Str) (nsep : Nat)
        (rn : Node) (ps : List Param),
      r.search method path = some (nn, path2, nsep) →
      selectNode nn nsep = some rn →
      (r.matchPath method path).2 = some ps →
      ∀ pr ∈ ps, ∃ np ∈ rn.parts, (partType np = ':' ∨ partType np = '*') ∧ pr.1 = partName np)
    ∧ rLit.matchPath strGET "/a/V/c".toList = (some 5, some [("x".toList, "V".toList)])
    ∧ rLit.matchPath strGET "/a/V/b".toList = (some 5, some [("x".toList, "V".toList)]) := by
  refine ⟨?_, by decide, by decide⟩
  intro r method path nn path2 nsep rn ps hs hsel hps pr hpr
  by_cases hz : rn.parts.length = 0
  · rw [matchPath_static r method path nn path2 nsep rn hs hsel hz] at hps
    simp at hps
  · rw [matchPath_capture r method path nn path2 nsep rn hs hsel hz] at hps
    simp only [Option.some.injEq] at hps
    subst hps
    exact specCapture_mem rn.parts path2 (fwdSegs path2 '/') pr hpr

/-- Witness for C4: the one pair captured from `/a/V/c` under
`/a/:x/b` comes from the param part `:x`, not from the literal. -/
theorem claim_C4_witness :
    ∃ np ∈ [":x".toList, "/b".toList],
      (partType np = ':' ∨ partType np = '*')
      ∧ ("x".toList, "V".toList).1 = partName np :=
  claim_C4.1 rLit strGET "/a/V/c".toList [⟨[], 5, [":x".toList, "/b".toList]⟩]
    "/V/c".toList 2 ⟨[], 5, [":x".toList, "/b".toList]⟩ [("x".toList, "V".toList)]
    (by decide) (by decide) (by decide) ("x".toList, "V".toList) (by decide)

/-- Witness for C9 at the route `/assets/*p` (handler 21). -/
theorem claim_C9_witness :
    (((Router.new none).AddRoute [] strGET
        ("/assets".toList ++ '/' :: '*' :: "p".toList) 21).router).matchPath
      strGET "/assets".toList = (some 21, some [])
    ∧ (((Router.new none).AddRoute [] strGET
        ("/assets".toList ++ '/' :: '*' :: "p".toList) 21).router).matchPath
      strGET ("/assets".toList ++ ['/']) = (some 21, some []) :=
  claim_C9.1 "/assets".toList "p".toList [] strGET Method.GET 21 (by decide) (by decide)
    (by decide) (by decide) (by decide) (by decide) (by decide)

/-- Counterexample to C5 as stated: a static route does not always match
its own pattern path.  `/x/` (trailing slash, handler 6) and `x` (no
separator, handler 7) match nothing at their exact pattern paths, and
static `/a/b` (handler 8) registered after `/a/b/*w` (handler 9) is
shadowed by the earlier wildcard node of the same bucket. -/
theorem claim_C5_cex :
    (rTrail.matchPath strGET "/x/".toList).1 = none
    ∧ (rNoSlash.matchPath strGET "x".toList).1 = none
    ∧ (rShadow.matchPath strGET "/a/b".toList).1 = some 9 := by
  decide

/-- C5 (amended): a purely static pattern — no `':'` or `'*'` byte —
that contains a separator and does not end with one (the root pattern
`/` excepted), registered as the only route of a fresh router, is
matched by its exact pattern path: the route's handler is returned with
nil params, and the pool is never touched. -/
theorem claim_C5 (pattern g method : Str) (mth : Method) (hid : Nat)
    (hm : methodOfString method = some mth)
    (hsp : ∀ c ∈ pattern, isSpecial c = false)
    (hsep : '/' ∈ pattern)
    (htrail : pattern = ['/'] ∨ pattern.getLastD ' ' ≠ '/') :
    (((Router.new none).AddRoute g method pattern hid).router).matchPath method pattern
      = (some hid, none) := by
  have hne : pattern ≠ [] := fun hcon => by rw [hcon] at hsep; simp at hsep
  have hsplit : splitPathToParts pattern = (pattern, [], 0, 0) :=
    splitPathToParts_nospecial pattern hsp hne
  have hstrip : ¬ (pattern.length > 1 ∧ pattern.getLastD ' ' = '/') := by
    rcases htrail with h | h
    · rw [h]
      simp
    · rintro ⟨hlen, hlastd⟩
      exact h hlastd
  have hadd : ((Router.new none).AddRoute g method pattern hid).router
      = { methods := fun m' => if m' = mth then [(pattern, [⟨g, hid, []⟩])] else [],
          maxParams := 0, opts := {} } := by
    unfold Router.AddRoute
    rw [hsplit]
    have c1 : ¬ (0 : Nat) > 1 := by omega
    have c2 : ¬ ((0 : Nat) = 1 ∧ partType (([] : List NodePart).getLastD []) ≠ '*') := by
      simp
    simp only [if_neg c1, if_neg c2, if_neg hstrip, hm]
    rfl
  rw [hadd]
  set r' : Router :=
    { methods := fun m' => if m' = mth then [(pattern, [⟨g, hid, []⟩])] else [],
      maxParams := 0, opts := {} } with hr'
  have hmap : r'.getMap method = some [(pattern, [⟨g, hid, []⟩])] := by
    simp [Router.getMap, hm, hr']
  obtain ⟨j, hj, hjv⟩ := List.getElem_of_mem hsep
  have hjd : pattern.getD j ' ' = '/' := by
    rw [List.getD_eq_getElem pattern ' ' hj, hjv]
  obtain ⟨ss, tl, hssne, hrev⟩ := revPieces_hasSep pattern '/'
    pattern.length pattern.length 0 le_rfl le_rfl ⟨j, hj, hjd⟩
  have hfull : mGet (r'.getMap method) pattern = some [⟨g, hid, []⟩] := by
    rw [hmap]
    simp [mGet, rmGet]
  have hsearch : r'.search method pattern = some ([⟨g, hid, []⟩], [], 0) := by
    rw [search_eq_find]
    have hsegs : revSegs pattern '/' = (ss, 0, pattern.length) :: tl := hrev
    rw [hsegs, List.find?_cons_of_pos _ (by simp [List.take_length, hfull])]
    simp [List.take_length, hfull, List.drop_length]
  exact matchPath_static r' method pattern [⟨g, hid, []⟩] [] 0 ⟨g, hid, []⟩
    hsearch rfl rfl

/-- Witness for C5 at the static pattern `/users`. -/
theorem claim_C5_witness :
    (((Router.new none).AddRoute [] strGET "/users".toList 42).router).matchPath
        strGET "/users".toList = (some 42, none) :=
  claim_C5 "/users".toList [] strGET Method.GET 42 (by decide) (by decide) (by decide)
    (Or.inr (by decide))

end Apiserv
